import Mathlib

/-!
Verification development for the kudos bot (`main.py`, `gemini_message.py`).

The grant extractor is the Python regex
  MENTION_PLUS_PATTERN = re.compile(r"<@([A-Z0-9]+)>\s*\+\+\s*(.*?)(?=<@[A-Z0-9]+>\s*\+\+|$)")
applied with `findall`.  We embed its exact operational semantics on
`List Char`:

* `[A-Z0-9]` is `isIdChar` (ASCII uppercase letters and digits);
* `\s` is `isPySpace` (the ASCII whitespace characters Python's `\s`
  matches; the sources and all inputs considered here are restricted to
  these — Python additionally matches some non-ASCII Unicode spaces);
* `.` does not match a newline (no `re.DOTALL`);
* `$` matches at the end of the string and also just before a newline
  that is the last character (no `re.MULTILINE`); on a suffix view this
  is `atDollar`: the remaining suffix is `[]` or `['\n']`;
* the greedy pieces `[A-Z0-9]+`, the two `\s*` never need backtracking
  here: each is followed by a literal (`>` resp. `++`) or by the lazy
  group, and a shorter greedy match can never make the continuation
  succeed when the maximal one fails (the lookahead alternatives `<@…`
  and `$` cannot hold at a position the maximal `\s*` skipped, since a
  skipped position starts with a whitespace character and is not at the
  end);
* the lazy `(.*?)` with lookahead takes the shortest prefix of
  non-newline characters after which the lookahead holds (`findNote`);
* `findall` scans left to right, retrying at the next character after a
  failed start and resuming at the match end after a success (`scanAux`).
-/

namespace KudosBot

/-- The character class `[A-Z0-9]` of `MENTION_PLUS_PATTERN`. -/
def isIdChar (c : Char) : Bool := c.isUpper || c.isDigit

/-- The ASCII characters matched by Python's `\s`. -/
def isPySpace (c : Char) : Bool :=
  c = ' ' || c = '\t' || c = '\n' || c = '\x0d' || c = '\x0b' || c = '\x0c'

/-- Greedy `\s*`: drop the maximal whitespace prefix. -/
def dropSpaces (l : List Char) : List Char := l.dropWhile isPySpace

/-- Match the head part `<@([A-Z0-9]+)>\s*\+\+\s*` of `MENTION_PLUS_PATTERN`
at the start of `l`: the literal `<@`, the captured run `([A-Z0-9]+)`
(greedy, must be nonempty), the literal `>`, greedy `\s*`, the literal
`++`, greedy `\s*`.  On success returns the captured identifier and the
remaining suffix (the position where the lazy note group starts). -/
def matchHead : List Char → Option (List Char × List Char)
  | c1 :: c2 :: m =>
    if c1 = '<' ∧ c2 = '@' ∧ m.takeWhile isIdChar ≠ [] then
      match m.dropWhile isIdChar with
      | c3 :: r2 =>
        if c3 = '>' then
          match dropSpaces r2 with
          | c4 :: c5 :: r3 =>
            if c4 = '+' ∧ c5 = '+' then some (m.takeWhile isIdChar, dropSpaces r3)
            else none
          | _ => none
        else none
      | _ => none
    else none
  | _ => none

/-- The pattern `<@[A-Z0-9]+>\s*\+\+` occurs at this position (the first
lookahead alternative; it has exactly the success condition of
`matchHead`, whose extra trailing `\s*` never fails). -/
def isMentionPlusAt (l : List Char) : Bool := (matchHead l).isSome

/-- Python's `$` (no MULTILINE) holds at this suffix: end of string, or
just before a string-final newline. -/
def atDollar (l : List Char) : Bool := l = ([] : List Char) || l = ['\n']

/-- The lookahead `(?=<@[A-Z0-9]+>\s*\+\+|$)`. -/
def lookahead (l : List Char) : Bool := isMentionPlusAt l || atDollar l

/-- The lazy group `(.*?)` followed by the lookahead: the shortest prefix
of non-newline characters after which `lookahead` holds.  Returns the
note and the remaining suffix; `none` when no such prefix exists (a
newline blocks `.` before any lookahead position). -/
def findNote (l : List Char) : Option (List Char × List Char) :=
  if lookahead l then some ([], l)
  else
    match l with
    | [] => none
    | c :: t =>
      if c = '\n' then none
      else (findNote t).map (fun p => (c :: p.1, p.2))

/-- One attempted match of `MENTION_PLUS_PATTERN` at the start of `l`:
head part, then note.  Returns `(group 1, group 2, rest after the match)`. -/
def matchOne (l : List Char) : Option (List Char × List Char × List Char) :=
  (matchHead l).bind fun p => (findNote p.2).map fun q => (p.1, q.1, q.2)

/-- Fuel-driven scanning loop of `findall`: at each position try a full
match; on success emit the groups and resume at the match end, on
failure retry at the next character.  Each step consumes at least one
character, so any fuel above the input length computes the scan to
completion (`scanLoop_congr`). -/
def scanLoop : Nat → List Char → List (List Char × List Char)
  | 0, _ => []
  | fuel + 1, l =>
    match matchOne l with
    | some (id, note, rest) => (id, note) :: scanLoop fuel rest
    | none =>
      match l with
      | [] => []
      | _ :: t => scanLoop fuel t

/-- `MENTION_PLUS_PATTERN.findall` on a character list: scan left to
right; after a failed start retry at the next character, after a success
resume at the match end.  Returns the list of `(group 1, group 2)` pairs. -/
def scanAux (l : List Char) : List (List Char × List Char) :=
  scanLoop (l.length + 1) l

/-- `MENTION_PLUS_PATTERN.findall(text)`, as called by
`handle_message_events`: the list of `(target_user_id, message)` pairs. -/
def mentionPlusFindall (s : String) : List (String × String) :=
  (scanAux s.toList).map (fun p => (p.1.asString, p.2.asString))

/-- The suffixes of `l` at which the grant pattern
`<@[A-Z0-9]+>\s*\+\+` occurs, in left-to-right position order.  This is
the specification-side notion of "well-formed grant occurrence". -/
def occs : List Char → List (List Char)
  | [] => []
  | c :: t =>
    if isMentionPlusAt (c :: t) then (c :: t) :: occs t else occs t

/-- The `(group 1, group 2)` pair the pattern produces at an occurrence
suffix. -/
def grantAt (t : List Char) : List Char × List Char :=
  ((matchOne t).map (fun q => (q.1, q.2.1))).getD ([], [])

/-!
## Ledger store (the SQLite layer of `main.py`)

`init_db` creates `kudos (user_id TEXT PRIMARY KEY, count INTEGER)` and
`kudos_log (id INTEGER PRIMARY KEY AUTOINCREMENT, receiver_id TEXT NOT
NULL, giver_id TEXT NOT NULL, message TEXT, timestamp DATETIME DEFAULT
CURRENT_TIMESTAMP)`.  The state is modelled as the rows of each table in
insertion order; the log's server-assigned `id` and `timestamp` columns
are not modelled (no claim below refers to them).
-/

/-- One `kudos_log` row (`message` is a nullable column). -/
structure LogRow where
  receiver_id : String
  giver_id : String
  message : Option String
deriving DecidableEq, Repr

/-- The two tables owned by the ledger. -/
structure DBState where
  kudos : List (String × Nat)
  kudos_log : List LogRow
deriving DecidableEq, Repr

/-- The state right after `init_db` on a fresh database. -/
def dbEmpty : DBState := ⟨[], []⟩

/-- `INSERT INTO kudos (user_id, count) VALUES (?, 1) ON CONFLICT(user_id)
DO UPDATE SET count = count + 1`: bump the matching row (`user_id` is
the primary key) or insert a fresh row with count 1. -/
def upsertCount : List (String × Nat) → String → List (String × Nat)
  | [], u => [(u, 1)]
  | (v, c) :: t, u => if v = u then (v, c + 1) :: t else (v, c) :: upsertCount t u

/-- `increment_kudos(user_id, giver_id=None, message=None)`: upsert the
aggregate row; then, only `if giver_id:` (Python truthiness: not `None`
and not the empty string), append one `kudos_log` row.  The Python
function body has no `return` statement, so the call returns `None`:
the second component of the result models that returned value. -/
def increment_kudos (db : DBState) (user_id : String) (giver_id : Option String)
    (message : Option String) : DBState × Option Nat :=
  let kudos' := upsertCount db.kudos user_id
  let log' :=
    match giver_id with
    | some g => if g = "" then db.kudos_log else db.kudos_log ++ [⟨user_id, g, message⟩]
    | none => db.kudos_log
  (⟨kudos', log'⟩, none)

/-- `SELECT count FROM kudos WHERE user_id = ?` with `fetchone`: the
first matching row's count, else 0. -/
def get_kudos_rows : List (String × Nat) → String → Nat
  | [], _ => 0
  | (v, c) :: t, u => if v = u then c else get_kudos_rows t u

/-- `get_kudos(user_id)`: current count, or 0 when absent. -/
def get_kudos (db : DBState) (user_id : String) : Nat :=
  get_kudos_rows db.kudos user_id

/-- The number of `kudos_log` rows with the given `receiver_id` (the
transaction count against which the spec's invariant compares the
aggregate). -/
def logCount (db : DBState) (u : String) : Nat :=
  (db.kudos_log.filter (fun r => r.receiver_id == u)).length

/-- The ordering used by `ORDER BY count DESC`: higher counts first.
SQLite leaves the relative order of equal counts unspecified; insertion
sort below realizes one admissible order. -/
def byCountDesc (a b : String × Nat) : Prop := b.2 ≤ a.2

instance : DecidableRel byCountDesc := fun a b => Nat.decLe b.2 a.2

instance : IsTotal (String × Nat) byCountDesc :=
  ⟨fun a b => Nat.le_total b.2 a.2⟩

instance : IsTrans (String × Nat) byCountDesc :=
  ⟨fun _ _ _ h1 h2 => Nat.le_trans h2 h1⟩

/-- `get_leaderboard(limit=10)`: `SELECT user_id, count FROM kudos ORDER
BY count DESC LIMIT ?`. -/
def get_leaderboard (db : DBState) (limit : Nat) : List (String × Nat) :=
  (List.insertionSort byCountDesc db.kudos).take limit

/-- A sequence of `increment_kudos` calls — `(receiver, (giver, message))`
triples — applied in order (return values discarded, as in the source). -/
def applyOps (ops : List (String × Option String × Option String)) (db : DBState) : DBState :=
  ops.foldl (fun d op => (increment_kudos d op.1 op.2.1 op.2.2).1) db

/-!
## Composer (`gemini_message.py`)
-/

/-- The ten local fallback strings of `get_fallback_message` (byte-exact
contents of the source file). -/
def fallback_messages : List String :=
  ["Keep up the amazing work! ğŸŒŸ",
   "You\x27re crushing it! ğŸš€",
   "Excellence recognized! ğŸ‘",
   "Your awesomeness is showing! âœ¨",
   "Making magic happen! ğŸ¯",
   "Stellar performance! â­",
   "You\x27re on fire! ğŸ”¥",
   "Absolutely brilliant! ğŸ’",
   "Shining bright! ğŸ’«",
   "Legendary work! ğŸ†"]

/-- `get_fallback_message()` returns `random.choice(fallback_messages)`.
The RNG draw of the run is modelled by the index `r`, reduced modulo the
list length; successive runs may use different draws. -/
def get_fallback_message (r : Nat) : String :=
  fallback_messages.getD (r % fallback_messages.length) ""

/-- Outcome of the external `client.models.generate_content` call: the
call raises (caught by the `except` handler), or returns a response
whose `.text` is `None` or a string. -/
inductive GeminiOutcome where
  | raised : GeminiOutcome
  | responseText : Option String → GeminiOutcome
deriving DecidableEq, Repr

/-- Python `str.strip()` on the ASCII whitespace characters: drop
whitespace from both ends. -/
def pystripL (l : List Char) : List Char :=
  ((l.dropWhile isPySpace).reverse.dropWhile isPySpace).reverse

/-- `s.strip()` at the `String` level. -/
def pystrip (s : String) : String := (pystripL s.toList).asString

/-- The `context_parts` / `context` construction of
`generate_kudos_message` (each `if name:` guard is Python truthiness;
`if kudos_count:` is falsy for `None` and for 0). -/
def geminiContext (receiver_name giver_name kudos_message : Option String)
    (kudos_count : Option Nat) : String :=
  let parts : List String :=
    (match giver_name with
     | some g => if g = "" then [] else ["from " ++ g]
     | none => []) ++
    (match receiver_name with
     | some r => if r = "" then [] else ["to " ++ r]
     | none => []) ++
    (match kudos_message with
     | some m => if m = "" then [] else ["with the message: \x27" ++ m ++ "\x27"]
     | none => []) ++
    (match kudos_count with
     | some n => if n = 0 then [] else ["bringing their total to " ++ toString n ++ " kudos"]
     | none => [])
  if parts = [] then "for great work" else String.intercalate " " parts

/-- `generate_kudos_message(...)`: fallback when `GEMINI_API_KEY` is
falsy (`None` or empty), when the call raises, or when
`response.text` is falsy (`None` or empty); otherwise
`response.text.strip()`.  All failures are caught inside the function:
it is total and never propagates an exception.  `r` is the run's RNG
draw consumed by `get_fallback_message`. -/
def generate_kudos_message (apiKey : Option String) (outcome : GeminiOutcome) (r : Nat)
    (receiver_name giver_name kudos_message : Option String)
    (kudos_count : Option Nat) : String :=
  match apiKey with
  | none => get_fallback_message r
  | some k =>
    if k = "" then get_fallback_message r
    else
      match outcome with
      | GeminiOutcome.raised => get_fallback_message r
      | GeminiOutcome.responseText none => get_fallback_message r
      | GeminiOutcome.responseText (some t) =>
        if t = "" then get_fallback_message r else pystrip t

/-!
## Orchestrator (`handle_message_events` in `main.py`)
-/

/-- The `kudos_message = message.strip() if message else None` line. -/
def pyNote (message : String) : Option String :=
  if message = "" then none else some (pystrip message)

/-- One reply emitted through `say(...)`, recorded structurally:
`selfGrant u` is the "Nice try <@u> ... You cannot give kudos to
yourself!" rejection; `kudos target count ai` is the ":sparkles:
<@target> now has *count* kudos! ai" acknowledgement (the data
interpolated into the f-strings). -/
inductive Reply where
  | selfGrant : String → Reply
  | kudos : String → Nat → String → Reply
deriving DecidableEq, Repr

/-- The `for target_user_id, message in matches:` loop of
`handle_message_events`.  `cmp` abstracts the `generate_kudos_message`
call (applied to the cleaned note and the fresh count, the two
arguments the handler passes).  `failAt k` injects a storage failure
(`sqlite3` raising) into the `k`-th `increment_kudos` call of the loop:
the source has no exception handler around the loop, so a raise aborts
the remaining iterations; the `Bool` in the result records that the
handler exited by exception.  A failed call leaves the database
unchanged (the `with sqlite3.connect(...)` context rolls back). -/
def processMatches (cmp : Option String → Nat → String) (failAt : Nat → Bool)
    (sender : String) : List (String × String) → Nat → DBState →
      DBState × List Reply × Bool
  | [], _, db => (db, [], false)
  | (target_user_id, message) :: ms, k, db =>
    if target_user_id = sender then
      let r := processMatches cmp failAt sender ms k db
      (r.1, Reply.selfGrant sender :: r.2.1, r.2.2)
    else if failAt k then (db, [], true)
    else
      let kudos_message := pyNote message
      let db' := (increment_kudos db target_user_id (some sender) kudos_message).1
      let new_count := get_kudos db' target_user_id
      let ai_message := cmp kudos_message new_count
      let r := processMatches cmp failAt sender ms (k + 1) db'
      (r.1, Reply.kudos target_user_id new_count ai_message :: r.2.1, r.2.2)

/-- Number of ledger calls (`increment_kudos`) the loop performs for a
match list: one per non-self match (self-grants `continue` before the
call). -/
def countGrants (sender : String) : List (String × String) → Nat
  | [] => 0
  | (t, _) :: ms => if t = sender then countGrants sender ms else countGrants sender ms + 1

/-- `handle_message_events(event, say)`: return silently when the event
text or sender is falsy, else run `findall` and process every match in
order.  Returns the final database state, the emitted replies in order,
and whether an uncaught storage error aborted the loop. -/
def handle_message_events (cmp : Option String → Nat → String) (failAt : Nat → Bool)
    (user : Option String) (text : String) (db : DBState) :
    DBState × List Reply × Bool :=
  match user with
  | none => (db, [], false)
  | some u =>
    if text = "" then (db, [], false)
    else if u = "" then (db, [], false)
    else processMatches cmp failAt u (mentionPlusFindall text) 0 db

theorem dropSpaces_length_le (l : List Char) : (dropSpaces l).length ≤ l.length := by
  simpa [dropSpaces] using (List.dropWhile_suffix isPySpace (l := l)).length_le

/-- Exact success condition of `matchHead`, as a shape decomposition. -/
theorem matchHead_eq_some_iff {l : List Char} {id r0 : List Char} :
    matchHead l = some (id, r0) ↔
      ∃ m r2 r3, l = '<' :: '@' :: m ∧ m.dropWhile isIdChar = '>' :: r2 ∧
        m.takeWhile isIdChar ≠ [] ∧ dropSpaces r2 = '+' :: '+' :: r3 ∧
        id = m.takeWhile isIdChar ∧ r0 = dropSpaces r3 := by
  constructor
  · intro h
    match l with
    | [] => exact absurd h (by simp [matchHead])
    | [c] => exact absurd h (by simp [matchHead])
    | c1 :: c2 :: m =>
      simp only [matchHead] at h
      split at h
      case isFalse => exact absurd h (by simp)
      case isTrue hc =>
        obtain ⟨rfl, rfl, hne⟩ := hc
        split at h
        case h_2 => exact absurd h (by simp)
        case h_1 c3 r2 heq =>
          split at h
          case isFalse => exact absurd h (by simp)
          case isTrue hc3 =>
            subst hc3
            split at h
            case h_2 => exact absurd h (by simp)
            case h_1 c4 c5 r3 heq2 =>
              split at h
              case isFalse => exact absurd h (by simp)
              case isTrue hc45 =>
                obtain ⟨rfl, rfl⟩ := hc45
                simp only [Option.some.injEq, Prod.mk.injEq] at h
                exact ⟨m, r2, r3, rfl, heq, hne, heq2, h.1.symm, h.2.symm⟩
  · rintro ⟨m, r2, r3, rfl, h1, h2, h3, rfl, rfl⟩
    simp [matchHead, h1, h2, h3]

theorem matchHead_length {l id r0 : List Char} (h : matchHead l = some (id, r0)) :
    r0.length < l.length := by
  obtain ⟨m, r2, r3, rfl, h1, h2, h3, rfl, rfl⟩ := matchHead_eq_some_iff.mp h
  have l1 : r3.length < r2.length := by
    have := dropSpaces_length_le r2
    rw [h3] at this
    simp at this; omega
  have l2 : r2.length < m.length := by
    have := (List.dropWhile_suffix isIdChar (l := m)).length_le
    rw [h1] at this
    simp at this; omega
  have l3 := dropSpaces_length_le r3
  simp [List.length_cons]
  omega

theorem findNote_pos {l : List Char} (h : lookahead l = true) :
    findNote l = some ([], l) := by
  unfold findNote
  rw [if_pos h]

theorem findNote_neg {c : Char} {t : List Char} (h : lookahead (c :: t) = false)
    (hc : c ≠ '\n') :
    findNote (c :: t) = (findNote t).map (fun p => (c :: p.1, p.2)) := by
  conv_lhs => unfold findNote
  simp [h, hc]

theorem findNote_newline {t : List Char} (h : lookahead ('\n' :: t) = false) :
    findNote ('\n' :: t) = none := by
  conv_lhs => unfold findNote
  simp [h]

/-- Characterization of a successful lazy-group match: the note and the
rest concatenate to the input, the lookahead holds at the rest, the note
contains no newline, and the lookahead fails at every strictly longer
suffix of the input (shortest-match property). -/
theorem findNote_spec {l note rest : List Char} (h : findNote l = some (note, rest)) :
    note ++ rest = l ∧ lookahead rest = true ∧ (∀ c ∈ note, c ≠ '\n') ∧
      (∀ t, t <:+ l → rest.length < t.length → lookahead t = false) := by
  induction l generalizing note with
  | nil =>
    have hl : lookahead ([] : List Char) = true := by decide
    rw [findNote_pos hl] at h
    simp only [Option.some.injEq, Prod.mk.injEq] at h
    obtain ⟨rfl, rfl⟩ := h
    refine ⟨rfl, hl, by simp, fun t ht hlen => ?_⟩
    have := ht.length_le
    omega
  | cons c t ih =>
    by_cases hl : lookahead (c :: t) = true
    · rw [findNote_pos hl] at h
      simp only [Option.some.injEq, Prod.mk.injEq] at h
      obtain ⟨rfl, rfl⟩ := h
      refine ⟨rfl, hl, by simp, fun t' ht' hlen => ?_⟩
      have := ht'.length_le
      omega
    · have hl' : lookahead (c :: t) = false := by simpa using hl
      by_cases hc : c = '\n'
      · subst hc
        rw [findNote_newline hl'] at h
        cases h
      · rw [findNote_neg hl' hc] at h
        rcases hft : findNote t with _ | ⟨n', r'⟩
        · rw [hft] at h; cases h
        · rw [hft] at h
          simp only [Option.map_some', Option.some.injEq, Prod.mk.injEq] at h
          obtain ⟨rfl, rfl⟩ := h
          obtain ⟨ha, hb, hc', hd⟩ := ih hft
          refine ⟨by simp [ha], hb, ?_, fun t' ht' hlen => ?_⟩
          · intro x hx
            rcases List.mem_cons.mp hx with rfl | hx'
            · exact hc
            · exact hc' x hx'
          · rcases List.suffix_cons_iff.mp ht' with rfl | ht''
            · exact hl'
            · exact hd t' ht'' hlen

theorem findNote_length_le {l note rest : List Char} (h : findNote l = some (note, rest)) :
    rest.length ≤ l.length := by
  have h1 := (findNote_spec h).1
  have h2 : note.length + rest.length = l.length := by
    rw [← h1]; simp
  omega

/-- Decomposition of a successful full match. -/
theorem matchOne_eq_some {l id note rest : List Char}
    (h : matchOne l = some (id, note, rest)) :
    ∃ r0, matchHead l = some (id, r0) ∧ findNote r0 = some (note, rest) := by
  unfold matchOne at h
  rcases hh : matchHead l with _ | ⟨id', r0⟩ <;> rw [hh] at h
  · cases h
  · simp only [Option.some_bind] at h
    rcases hf : findNote r0 with _ | ⟨note', rest'⟩ <;> rw [hf] at h
    · cases h
    · simp only [Option.map_some', Option.some.injEq, Prod.mk.injEq] at h
      obtain ⟨rfl, rfl, rfl⟩ := h
      exact ⟨r0, rfl, hf⟩

theorem matchOne_length {l id note rest : List Char}
    (h : matchOne l = some (id, note, rest)) : rest.length < l.length := by
  obtain ⟨r0, hh, hf⟩ := matchOne_eq_some h
  exact lt_of_le_of_lt (findNote_length_le hf) (matchHead_length hh)

theorem scanLoop_succ (fuel : Nat) (l : List Char) :
    scanLoop (fuel + 1) l =
      match matchOne l with
      | some (id, note, rest) => (id, note) :: scanLoop fuel rest
      | none =>
        match l with
        | [] => []
        | _ :: t => scanLoop fuel t := rfl

theorem scanLoop_congr : ∀ n (f1 f2 : Nat) (l : List Char), l.length = n →
    n < f1 → n < f2 → scanLoop f1 l = scanLoop f2 l := by
  intro n
  induction n using Nat.strong_induction_on with
  | _ n ih =>
    intro f1 f2 l hn h1 h2
    subst hn
    rcases f1 with _ | f1
    · omega
    rcases f2 with _ | f2
    · omega
    rw [scanLoop_succ f1 l, scanLoop_succ f2 l]
    rcases h : matchOne l with _ | ⟨id, note, rest⟩
    · rcases l with _ | ⟨c, t⟩
      · rfl
      · show scanLoop f1 t = scanLoop f2 t
        have hlt : t.length < (c :: t).length := by simp
        exact ih t.length hlt f1 f2 t rfl (by simp at h1 ⊢; omega) (by simp at h2 ⊢; omega)
    · show (id, note) :: scanLoop f1 rest = (id, note) :: scanLoop f2 rest
      have hlt := matchOne_length h
      have heq := ih rest.length hlt f1 f2 rest rfl (by omega) (by omega)
      rw [heq]

theorem suffix_append_long {t x y : List Char} (h : t <:+ x ++ y)
    (hlen : y.length < t.length) :
    ∃ x', x' ≠ [] ∧ x' <:+ x ∧ t = x' ++ y := by
  obtain ⟨p, hp⟩ := h
  have hplen : p.length < x.length := by
    have := congrArg List.length hp
    simp at this
    omega
  refine ⟨x.drop p.length, ?_, List.drop_suffix _ _, ?_⟩
  · intro hnil
    have := congrArg List.length hnil
    simp at this
    omega
  · have h1 : t = (p ++ t).drop p.length := by rw [List.drop_left]
    rw [hp] at h1
    rw [h1, List.drop_append_eq_append_drop, Nat.sub_eq_zero_of_le (le_of_lt hplen),
      List.drop_zero]

theorem suffix_of_suffix_length_le {l l₁ l₂ : List Char} (h1 : l₁ <:+ l)
    (h2 : l₂ <:+ l) (hlen : l₁.length ≤ l₂.length) : l₁ <:+ l₂ := by
  obtain ⟨p1, hp1⟩ := h1
  obtain ⟨p2, hp2⟩ := h2
  have e1 : l₁ = l.drop p1.length := by rw [← hp1, List.drop_left]
  have e2 : l₂ = l.drop p2.length := by rw [← hp2, List.drop_left]
  have hl1 : p1.length + l₁.length = l.length := by
    have := congrArg List.length hp1; simpa using this
  have hl2 : p2.length + l₂.length = l.length := by
    have := congrArg List.length hp2; simpa using this
  have : l₁ = l₂.drop (p1.length - p2.length) := by
    rw [e1, e2, List.drop_drop]
    congr 1
    omega
  rw [this]
  exact List.drop_suffix _ _

theorem isMentionPlusAt_head {t : List Char} (h : isMentionPlusAt t = true) :
    ∃ m, t = '<' :: '@' :: m := by
  unfold isMentionPlusAt at h
  rw [Option.isSome_iff_exists] at h
  obtain ⟨⟨id, r0⟩, hm⟩ := h
  obtain ⟨m, _, _, hl, _⟩ := matchHead_eq_some_iff.mp hm
  exact ⟨m, hl⟩

theorem matchHead_decomp {l id r0 : List Char} (h : matchHead l = some (id, r0)) :
    ∃ x, l = '<' :: (x ++ r0) ∧ ∀ c ∈ x, c ≠ '<' := by
  obtain ⟨m, r2, r3, rfl, h1, h2, h3, rfl, rfl⟩ := matchHead_eq_some_iff.mp h
  refine ⟨'@' :: (m.takeWhile isIdChar ++ '>' :: (r2.takeWhile isPySpace ++
    '+' :: '+' :: r3.takeWhile isPySpace)), ?_, ?_⟩
  · have em : m = m.takeWhile isIdChar ++ '>' :: r2 := by
      conv_lhs => rw [← List.takeWhile_append_dropWhile (p := isIdChar) (l := m)]
      rw [h1]
    have er2 : r2 = r2.takeWhile isPySpace ++ '+' :: '+' :: r3 := by
      conv_lhs => rw [← List.takeWhile_append_dropWhile (p := isPySpace) (l := r2)]
      unfold dropSpaces at h3
      rw [h3]
    have er3 : r3 = r3.takeWhile isPySpace ++ dropSpaces r3 := by
      conv_lhs => rw [← List.takeWhile_append_dropWhile (p := isPySpace) (l := r3)]
      rfl
    conv_lhs => rw [em, er2, er3]
    simp only [List.cons_append, List.append_assoc]
  · intro c hc
    simp only [List.mem_cons, List.mem_append] at hc
    rcases hc with rfl | hc | rfl | hc | rfl | rfl | hc
    · decide
    · have := List.mem_takeWhile_imp hc
      intro he
      subst he
      exact absurd this (by decide)
    · decide
    · have := List.mem_takeWhile_imp hc
      intro he
      subst he
      exact absurd this (by decide)
    · decide
    · decide
    · have := List.mem_takeWhile_imp hc
      intro he
      subst he
      exact absurd this (by decide)

/-- No grant occurrence starts strictly inside the matched head part. -/
theorem matchHead_gap {l id r0 : List Char} (h : matchHead l = some (id, r0)) :
    ∀ t, t <:+ l → r0.length < t.length → t.length < l.length →
      isMentionPlusAt t = false := by
  intro t ht hlow hhigh
  obtain ⟨x, hl, hx⟩ := matchHead_decomp h
  by_contra hmp
  have hmp' : isMentionPlusAt t = true := by simpa using hmp
  obtain ⟨m', hm'⟩ := isMentionPlusAt_head hmp'
  have ht' : t <:+ x ++ r0 := by
    subst hl
    rcases List.suffix_cons_iff.mp ht with rfl | h'
    · simp at hhigh
    · exact h'
  obtain ⟨x', hx'ne, hx'suf, hteq⟩ := suffix_append_long ht' hlow
  rcases x' with _ | ⟨c, x''⟩
  · exact hx'ne rfl
  · have hc : c ∈ x := hx'suf.subset (by simp)
    have hchead : c = '<' := by
      have e : (c :: x'') ++ r0 = '<' :: '@' :: m' := by rw [← hteq, hm']
      simpa using congrArg List.head? e
    exact hx c hc hchead

/-- The suffix of `l` where the match ends: it is a suffix, it is shorter,
and no grant occurrence lies strictly between the match start and the
match end (nothing is skipped by resuming the scan at the match end). -/
theorem matchOne_gap {l id note rest : List Char}
    (h : matchOne l = some (id, note, rest)) :
    rest <:+ l ∧ ∀ t, t <:+ l → rest.length < t.length → t.length < l.length →
      isMentionPlusAt t = false := by
  obtain ⟨r0, hh, hf⟩ := matchOne_eq_some h
  obtain ⟨hcat, hla, hnl, hgap⟩ := findNote_spec hf
  have hr0l : r0 <:+ l := by
    obtain ⟨m, r2, r3, rfl, h1, h2, h3, rfl, rfl⟩ := matchHead_eq_some_iff.mp hh
    have s1 : dropSpaces r3 <:+ r3 := List.dropWhile_suffix _
    have s2 : r3 <:+ dropSpaces r2 := ⟨['+', '+'], h3.symm⟩
    have s3 : dropSpaces r2 <:+ r2 := List.dropWhile_suffix _
    have s4 : r2 <:+ List.dropWhile isIdChar m := ⟨['>'], h1.symm⟩
    have s5 : List.dropWhile isIdChar m <:+ m := List.dropWhile_suffix _
    have s6 : m <:+ '<' :: '@' :: m := ⟨['<', '@'], rfl⟩
    exact (((((s1.trans s2).trans s3).trans s4).trans s5).trans s6)
  have hrest_r0 : rest <:+ r0 := ⟨note, hcat⟩
  refine ⟨hrest_r0.trans hr0l, fun t ht hlow hhigh => ?_⟩
  by_cases hcase : t.length ≤ r0.length
  · have htr0 : t <:+ r0 := suffix_of_suffix_length_le ht hr0l hcase
    have := hgap t htr0 hlow
    unfold lookahead at this
    exact (Bool.or_eq_false_iff.mp this).1
  · exact matchHead_gap hh t ht (by omega) hhigh

/-- Walking `occs` down from `l` to a suffix `rest` across a gap of
occurrence-free intermediate suffixes. -/
theorem occs_walk {l rest : List Char} (hsuf : rest <:+ l)
    (hlen : rest.length < l.length)
    (hgap : ∀ t, t <:+ l → rest.length < t.length → t.length < l.length →
      isMentionPlusAt t = false) :
    occs l = (if isMentionPlusAt l = true then [l] else []) ++ occs rest := by
  induction l with
  | nil => simp at hlen
  | cons c t ih =>
    have hrt : rest <:+ t := by
      rcases List.suffix_cons_iff.mp hsuf with rfl | h'
      · omega
      · exact h'
    have hocc : occs (c :: t) = (if isMentionPlusAt (c :: t) = true then [c :: t] else []) ++ occs t := by
      conv_lhs => unfold occs
      by_cases hmp : isMentionPlusAt (c :: t) = true <;> simp [hmp]
    rw [hocc]
    by_cases hcase : rest.length = t.length
    · have : rest = t := hrt.eq_of_length hcase
      rw [this]
    · have hlt : rest.length < t.length := by
        have := hrt.length_le
        omega
      have ihres := ih hrt hlt (fun t' ht' hl1 hl2 =>
        hgap t' (ht'.trans ⟨[c], rfl⟩) hl1 (by simp; omega))
      have hmpt : isMentionPlusAt t = false :=
        hgap t ⟨[c], rfl⟩ hlt (by simp)
      rw [ihres, hmpt]
      simp

theorem findNote_isSome {l : List Char} (hnl : ∀ c ∈ l, c ≠ '\n') :
    (findNote l).isSome := by
  induction l with
  | nil => rw [findNote_pos (by decide)]; rfl
  | cons c t ih =>
    by_cases hl : lookahead (c :: t) = true
    · rw [findNote_pos hl]; rfl
    · have hl' : lookahead (c :: t) = false := by simpa using hl
      have hc : c ≠ '\n' := hnl c (by simp)
      rw [findNote_neg hl' hc]
      have := ih (fun d hd => hnl d (by simp [hd]))
      rcases hs : findNote t with _ | q
      · rw [hs] at this; cases this
      · simp

theorem scanAux_some {l id note rest : List Char}
    (h : matchOne l = some (id, note, rest)) :
    scanAux l = (id, note) :: scanAux rest := by
  unfold scanAux
  rw [scanLoop_succ l.length l, h]
  show (id, note) :: scanLoop l.length rest = (id, note) :: scanLoop (rest.length + 1) rest
  rw [scanLoop_congr rest.length l.length (rest.length + 1) rest rfl (matchOne_length h) (by omega)]

theorem scanAux_none_cons {c : Char} {t : List Char}
    (h : matchOne (c :: t) = none) : scanAux (c :: t) = scanAux t := by
  unfold scanAux
  rw [scanLoop_succ (c :: t).length (c :: t), h]
  show scanLoop (c :: t).length t = scanLoop (t.length + 1) t
  rfl

theorem scanAux_nil : scanAux [] = [] := rfl

/-- Main scanner/occurrence correspondence on newline-free text: the
scanner produces exactly one match per grant occurrence, in
left-to-right order, and each match's groups are those computed by the
pattern at its own occurrence. -/
theorem scanAux_eq_occs {l : List Char} (hnl : ∀ c ∈ l, c ≠ '\n') :
    scanAux l = (occs l).map grantAt := by
  suffices H : ∀ n (l : List Char), l.length = n → (∀ c ∈ l, c ≠ '\n') →
      scanAux l = (occs l).map grantAt by
    exact H l.length l rfl hnl
  intro n
  induction n using Nat.strong_induction_on with
  | _ n ih =>
    intro l hn hnl
    subst hn
    rcases h : matchOne l with _ | ⟨id, note, rest⟩
    · have hmh : matchHead l = none := by
        rcases hm : matchHead l with _ | ⟨id, r0⟩
        · rfl
        · obtain ⟨m, r2, r3, rfl, h1, h2, h3, rfl, rfl⟩ := matchHead_eq_some_iff.mp hm
          have hsub : dropSpaces r3 <:+ '<' :: '@' :: m := by
            have s1 : dropSpaces r3 <:+ r3 := List.dropWhile_suffix _
            have s2 : r3 <:+ dropSpaces r2 := ⟨['+', '+'], h3.symm⟩
            have s3 : dropSpaces r2 <:+ r2 := List.dropWhile_suffix _
            have s4 : r2 <:+ List.dropWhile isIdChar m := ⟨['>'], h1.symm⟩
            have s5 : List.dropWhile isIdChar m <:+ m := List.dropWhile_suffix _
            have s6 : m <:+ '<' :: '@' :: m := ⟨['<', '@'], rfl⟩
            exact ((((s1.trans s2).trans s3).trans s4).trans s5).trans s6
          have hnl' : ∀ c ∈ dropSpaces r3, c ≠ '\n' := fun c hc =>
            hnl c (hsub.subset hc)
          have hfs := findNote_isSome hnl'
          rw [Option.isSome_iff_exists] at hfs
          obtain ⟨⟨note, rest⟩, hf⟩ := hfs
          have hcontra : matchOne ('<' :: '@' :: m) = some (m.takeWhile isIdChar, note, rest) := by
            unfold matchOne
            rw [hm, Option.some_bind, hf, Option.map_some']
          rw [hcontra] at h
          cases h
      have hmp : isMentionPlusAt l = false := by
        unfold isMentionPlusAt
        rw [hmh]
        rfl
      rcases l with _ | ⟨c, t⟩
      · rw [scanAux_nil]
        rfl
      · rw [scanAux_none_cons h]
        have hocc : occs (c :: t) = occs t := by
          conv_lhs => unfold occs
          simp [hmp]
        rw [hocc]
        exact ih t.length (by simp) t rfl (fun d hd => hnl d (by simp [hd]))
    · obtain ⟨hrsuf, hgap⟩ := matchOne_gap h
      have hrlen : rest.length < l.length := matchOne_length h
      have hmp : isMentionPlusAt l = true := by
        obtain ⟨r0, hh, _⟩ := matchOne_eq_some h
        unfold isMentionPlusAt
        rw [hh]
        rfl
      rw [scanAux_some h, occs_walk hrsuf hrlen hgap, hmp]
      have hga : grantAt l = (id, note) := by
        unfold grantAt
        rw [h]
        rfl
      have hnl' : ∀ c ∈ rest, c ≠ '\n' := fun c hc => hnl c (hrsuf.subset hc)
      rw [List.map_append, ih rest.length hrlen rest rfl hnl']
      simp [hga]

/-- Every pair the scanner emits comes from a full pattern match at some
position. -/
theorem scanAux_mem {l : List Char} {p : List Char × List Char} (hp : p ∈ scanAux l) :
    ∃ t rest, matchOne t = some (p.1, p.2, rest) := by
  suffices H : ∀ n (l : List Char), l.length = n → ∀ p : List Char × List Char,
      p ∈ scanAux l → ∃ t rest, matchOne t = some (p.1, p.2, rest) by
    exact H l.length l rfl p hp
  intro n
  induction n using Nat.strong_induction_on with
  | _ n ih =>
    intro l hn p hp
    subst hn
    rcases h : matchOne l with _ | ⟨id, note, rest⟩
    · rcases l with _ | ⟨c, t⟩
      · rw [scanAux_nil] at hp
        cases hp
      · rw [scanAux_none_cons h] at hp
        exact ih t.length (by simp) t rfl p hp
    · rw [scanAux_some h] at hp
      rcases List.mem_cons.mp hp with rfl | hp'
      · exact ⟨l, rest, h⟩
      · exact ih rest.length (matchOne_length h) rest rfl p hp'

/-- Shape of a successful match's groups: group 1 is a nonempty run of
`[A-Z0-9]` characters, and group 2 never begins with a whitespace
character (the greedy `\s*` after `++` has consumed it). -/
theorem matchOne_groups {t id note rest : List Char}
    (h : matchOne t = some (id, note, rest)) :
    id ≠ [] ∧ (∀ c ∈ id, isIdChar c = true) ∧
      (note = [] ∨ ∃ c note', note = c :: note' ∧ isPySpace c = false) := by
  obtain ⟨r0, hh, hf⟩ := matchOne_eq_some h
  obtain ⟨m, r2, r3, rfl, h1, h2, h3, rfl, hr0⟩ := matchHead_eq_some_iff.mp hh
  refine ⟨h2, fun c hc => List.mem_takeWhile_imp hc, ?_⟩
  rcases hnote : note with _ | ⟨c, note'⟩
  · exact Or.inl rfl
  · refine Or.inr ⟨c, note', rfl, ?_⟩
    subst hnote
    subst hr0
    have hcat := (findNote_spec hf).1
    have hhd : (List.dropWhile isPySpace r3).head? = some c := by
      unfold dropSpaces at hcat
      rw [← hcat]
      rfl
    have hnp := List.head?_dropWhile_not isPySpace r3
    rw [hhd] at hnp
    exact hnp

theorem dropWhile_eq_self_of_head {p : Char → Bool} {l : List Char} {c : Char}
    (hh : l.head? = some c) (hc : p c = false) : l.dropWhile p = l := by
  rcases l with _ | ⟨a, t⟩
  · cases hh
  · simp only [List.head?_cons, Option.some.injEq] at hh
    subst hh
    rw [List.dropWhile_cons_of_neg (by simp [hc])]

theorem dropWhile_dropWhile_self {p : Char → Bool} (l : List Char) :
    (l.dropWhile p).dropWhile p = l.dropWhile p := by
  rcases hh : (l.dropWhile p).head? with _ | ⟨c⟩
  · rcases hm : l.dropWhile p with _ | _
    · rfl
    · rw [hm] at hh
      cases hh
  · have hc := List.head?_dropWhile_not p l
    rw [hh] at hc
    exact dropWhile_eq_self_of_head hh hc

/-- `strip` is idempotent. -/
theorem pystripL_idem (l : List Char) : pystripL (pystripL l) = pystripL l := by
  have h1 : List.dropWhile isPySpace (pystripL l) = pystripL l := by
    rcases hh : (pystripL l).head? with _ | ⟨c⟩
    · rcases hm : pystripL l with _ | _
      · rfl
      · rw [hm] at hh
        cases hh
    · have hcp : isPySpace c = false := by
        have hpre : pystripL l <+: List.dropWhile isPySpace l := by
          unfold pystripL
          have hs := List.reverse_prefix.mpr
            (List.dropWhile_suffix (l := (List.dropWhile isPySpace l).reverse) isPySpace)
          rwa [List.reverse_reverse] at hs
        obtain ⟨s, hs⟩ := hpre
        have hh2 : (List.dropWhile isPySpace l).head? = some c := by
          rw [← hs]
          rcases hm : pystripL l with _ | ⟨d, t⟩
          · rw [hm] at hh
            cases hh
          · rw [hm] at hh
            simp only [List.head?_cons, Option.some.injEq] at hh
            subst hh
            rfl
        have hres := List.head?_dropWhile_not isPySpace l
        rw [hh2] at hres
        exact hres
      exact dropWhile_eq_self_of_head hh hcp
  have h2 : List.dropWhile isPySpace (pystripL l).reverse = (pystripL l).reverse := by
    have hrev : (pystripL l).reverse =
        List.dropWhile isPySpace (List.dropWhile isPySpace l).reverse := by
      unfold pystripL
      rw [List.reverse_reverse]
    rw [hrev, dropWhile_dropWhile_self]
  have hout : pystripL (pystripL l) =
      ((List.dropWhile isPySpace (pystripL l)).reverse.dropWhile isPySpace).reverse := rfl
  rw [hout, h1, h2, List.reverse_reverse]

theorem pystrip_idem (s : String) : pystrip (pystrip s) = pystrip s := by
  unfold pystrip
  have h : (pystripL s.toList).asString.toList = pystripL s.toList := rfl
  rw [h, pystripL_idem]

/-- A list whose head is not whitespace strips to a nonempty list. -/
theorem pystripL_ne_nil {c : Char} {t : List Char} (hc : isPySpace c = false) :
    pystripL (c :: t) ≠ [] := by
  unfold pystripL
  intro hnil
  have h1 : (c :: t).dropWhile isPySpace = c :: t := by
    rw [List.dropWhile_cons_of_neg (by simp [hc])]
  rw [h1] at hnil
  have h2 : (c :: t).reverse.dropWhile isPySpace = [] := by
    have := congrArg List.reverse hnil
    simpa using this
  rw [List.dropWhile_eq_nil_iff] at h2
  have hcmem : c ∈ (c :: t).reverse := by simp
  have := h2 c hcmem
  rw [hc] at this
  cases this

/-- The upsert bumps the queried count by exactly one, whatever the
prior rows are. -/
theorem get_kudos_rows_upsert_self (rows : List (String × Nat)) (u : String) :
    get_kudos_rows (upsertCount rows u) u = get_kudos_rows rows u + 1 := by
  induction rows with
  | nil => simp [upsertCount, get_kudos_rows]
  | cons p t ih =>
    obtain ⟨v, c⟩ := p
    by_cases hv : v = u
    · subst hv
      simp [upsertCount, get_kudos_rows]
    · simp [upsertCount, get_kudos_rows, hv, ih]

/-- The upsert leaves every other user's count unchanged. -/
theorem get_kudos_rows_upsert_other (rows : List (String × Nat)) {u w : String}
    (hw : w ≠ u) :
    get_kudos_rows (upsertCount rows u) w = get_kudos_rows rows w := by
  induction rows with
  | nil => simp [upsertCount, get_kudos_rows, Ne.symm hw]
  | cons p t ih =>
    obtain ⟨v, c⟩ := p
    by_cases hv : v = u
    · subst hv
      simp [upsertCount, get_kudos_rows, Ne.symm hw]
    · simp [upsertCount, get_kudos_rows, hv, ih]

/-- `increment_kudos` always bumps the receiver's aggregate by one
(sequential behaviour of the SQL upsert). -/
theorem get_kudos_increment_self (db : DBState) (u : String) (g : Option String)
    (m : Option String) :
    get_kudos (increment_kudos db u g m).1 u = get_kudos db u + 1 := by
  unfold get_kudos increment_kudos
  exact get_kudos_rows_upsert_self db.kudos u

theorem get_kudos_increment_other (db : DBState) {u w : String} (g : Option String)
    (m : Option String) (hw : w ≠ u) :
    get_kudos (increment_kudos db u g m).1 w = get_kudos db w := by
  unfold get_kudos increment_kudos
  exact get_kudos_rows_upsert_other db.kudos hw

/-- The log after an `increment_kudos` call. -/
theorem increment_log (db : DBState) (u : String) (g : Option String)
    (m : Option String) :
    (increment_kudos db u g m).1.kudos_log =
      match g with
      | some gv => if gv = "" then db.kudos_log else db.kudos_log ++ [⟨u, gv, m⟩]
      | none => db.kudos_log := rfl

/-- One truthy-giver increment preserves the aggregate/log invariant. -/
theorem invariant_step (db : DBState) (u g : String) (m : Option String) (hg : g ≠ "")
    (hinv : ∀ w, get_kudos db w = logCount db w) :
    ∀ w, get_kudos (increment_kudos db u (some g) m).1 w =
      logCount (increment_kudos db u (some g) m).1 w := by
  intro w
  have hlog : (increment_kudos db u (some g) m).1.kudos_log =
      db.kudos_log ++ [⟨u, g, m⟩] := by
    rw [increment_log]
    simp [hg]
  by_cases hw : w = u
  · subst hw
    rw [get_kudos_increment_self, hinv w]
    unfold logCount
    rw [hlog]
    simp [List.filter_append, logCount]
  · rw [get_kudos_increment_other db _ _ hw, hinv w]
    unfold logCount
    rw [hlog]
    simp [List.filter_append, Ne.symm hw]

/-- Under a never-failing ledger the loop ignores the call counter. -/
theorem processMatches_k_irrelevant (cmp : Option String → Nat → String)
    (sender : String) :
    ∀ (ms : List (String × String)) (k k' : Nat) (db : DBState),
      processMatches cmp (fun _ => false) sender ms k db =
        processMatches cmp (fun _ => false) sender ms k' db := by
  intro ms
  induction ms with
  | nil => intro k k' db; rfl
  | cons p ms ih =>
    intro k k' db
    obtain ⟨target, message⟩ := p
    by_cases ht : target = sender
    · simp only [processMatches]
      rw [if_pos ht, if_pos ht, ih k k' db]
    · simp only [processMatches]
      rw [if_neg ht, if_neg ht]
      simp only [Bool.false_eq_true, if_false]
      rw [ih (k + 1) (k' + 1)]

/-- Under a never-failing ledger the loop processes an appended list by
processing the two halves in order (the second from the state the first
left behind), concatenating the replies, and never aborting. -/
theorem processMatches_append (cmp : Option String → Nat → String) (sender : String) :
    ∀ (ms1 ms2 : List (String × String)) (db : DBState),
      processMatches cmp (fun _ => false) sender (ms1 ++ ms2) 0 db =
        ((processMatches cmp (fun _ => false) sender ms2 0
            (processMatches cmp (fun _ => false) sender ms1 0 db).1).1,
         (processMatches cmp (fun _ => false) sender ms1 0 db).2.1 ++
           (processMatches cmp (fun _ => false) sender ms2 0
             (processMatches cmp (fun _ => false) sender ms1 0 db).1).2.1,
         (processMatches cmp (fun _ => false) sender ms2 0
           (processMatches cmp (fun _ => false) sender ms1 0 db).1).2.2) := by
  intro ms1
  induction ms1 with
  | nil => intro ms2 db; rfl
  | cons p ms1 ih =>
    intro ms2 db
    obtain ⟨target, message⟩ := p
    by_cases ht : target = sender
    · simp only [List.cons_append, processMatches, List.append_eq]
      rw [if_pos ht, if_pos ht, ih ms2 db]
      simp
    · simp only [List.cons_append, processMatches, List.append_eq]
      rw [if_neg ht, if_neg ht]
      simp only [Bool.false_eq_true, if_false]
      rw [processMatches_k_irrelevant cmp sender (ms1 ++ ms2) (0 + 1) 0,
        processMatches_k_irrelevant cmp sender ms1 (0 + 1) 0, ih ms2]
      simp

/-!
## Claim theorems
-/

/-- C1, counterexample: on the spec's own example the extractor keeps the
trailing space of the first note (the greedy `\s*` strips the
between-marker substring's leading whitespace but the trailing run stays
in group 2); moreover a text containing one well-formed grant whose note
region runs into a newline yields no match at all (`.` does not cross
newlines and `$` only matches at the end), so "k grants, k matches" also
fails as stated. -/
theorem C1_counterexample :
    mentionPlusFindall "<@U1> ++ great job <@U2> ++ nice!" ≠
      [("U1", "great job"), ("U2", "nice!")] ∧
    mentionPlusFindall "<@U1> ++ a\nb" = [] := by
  constructor
  · decide
  · rfl

/-- C1 (amended): on newline-free text the extractor returns exactly one
match per well-formed grant occurrence, in left-to-right order, each
match being the pattern's output at its own occurrence; the example
yields `(U1, "great job ")` (trailing space kept, leading space consumed
by `\s*`) and `(U2, "nice!")`; occurrence-free text yields the empty
list. -/
theorem C1_extractor_matches_grants :
    (∀ l : List Char, (∀ c ∈ l, c ≠ '\n') → scanAux l = (occs l).map grantAt) ∧
    mentionPlusFindall "<@U1> ++ great job <@U2> ++ nice!" =
      [("U1", "great job "), ("U2", "nice!")] ∧
    (∀ l : List Char, occs l = [] → (∀ c ∈ l, c ≠ '\n') → scanAux l = []) ∧
    mentionPlusFindall "no grant markers ++ here" = [] := by
  refine ⟨fun l h => scanAux_eq_occs h, by decide, ?_, by decide⟩
  intro l hocc hnl
  rw [scanAux_eq_occs hnl, hocc]
  rfl

theorem C1_extractor_matches_grants_witness :
    (∀ c ∈ ("<@AB12> ++ thanks a lot".toList), c ≠ '\n') ∧
    scanAux ("<@AB12> ++ thanks a lot".toList) =
      (occs ("<@AB12> ++ thanks a lot".toList)).map grantAt :=
  ⟨by decide, C1_extractor_matches_grants.1 _ (by decide)⟩

/-- C2, counterexample: one `increment_kudos` call with `giver_id = None`
bumps the aggregate to 1 while appending no transaction row, so the
aggregate and the log disagree. -/
theorem C2_counterexample :
    ¬ (get_kudos (increment_kudos dbEmpty "U1" none none).1 "U1" =
       logCount (increment_kudos dbEmpty "U1" none none).1 "U1") := by
  decide

/-- C2 (amended): after any sequence of `increment_kudos` calls in which
every call passes a truthy (non-`None`, nonempty) `giver_id`, each
user's aggregate count equals the number of log rows naming that user as
receiver — each such call bumps the aggregate by exactly one and appends
exactly one log row.  A call with falsy `giver_id` updates only the
aggregate and breaks the equation (see the counterexample and C9). -/
theorem C2_aggregate_matches_log :
    ∀ (ops : List (String × Option String × Option String)) (db : DBState),
      (∀ op ∈ ops, ∃ g, op.2.1 = some g ∧ g ≠ "") →
      (∀ w, get_kudos db w = logCount db w) →
      ∀ w, get_kudos (applyOps ops db) w = logCount (applyOps ops db) w := by
  intro ops
  induction ops with
  | nil => intro db _ hinv w; exact hinv w
  | cons op ops ih =>
    intro db hops hinv w
    obtain ⟨r, g0, m⟩ := op
    obtain ⟨g, hg0, hg⟩ := hops (r, g0, m) (by simp)
    simp only at hg0
    subst hg0
    have step := invariant_step db r g m hg hinv
    exact ih _ (fun op' hop' => hops op' (by simp [hop'])) step w

theorem C2_aggregate_matches_log_witness :
    (∀ op ∈ [(("U1" : String), (some "U9" : Option String), (some "hi" : Option String))],
        ∃ g, op.2.1 = some g ∧ g ≠ "") ∧
    (∀ w, get_kudos dbEmpty w = logCount dbEmpty w) ∧
    get_kudos (applyOps [("U1", some "U9", some "hi")] dbEmpty) "U1" =
      logCount (applyOps [("U1", some "U9", some "hi")] dbEmpty) "U1" :=
  ⟨fun op hop => ⟨"U9", by simp at hop; rw [hop], by decide⟩,
   fun _ => rfl,
   C2_aggregate_matches_log [("U1", some "U9", some "hi")] dbEmpty
     (fun op hop => ⟨"U9", by simp at hop; rw [hop], by decide⟩)
     (fun _ => rfl) "U1"⟩

/-- C3, counterexample: `increment_kudos` has no `return` statement — the
call returns `None`, not the post-increment count (which is 1 here). -/
theorem C3_counterexample :
    ¬ ((increment_kudos dbEmpty "U1" (some "U9") (some "great")).2 =
       some (get_kudos (increment_kudos dbEmpty "U1" (some "U9") (some "great")).1 "U1")) := by
  decide

/-- C3 (amended): `increment_kudos` returns `None`; the post-increment
count is obtained by the `get_kudos` lookup the handler performs right
after the call, and that lookup always returns the pre-call count plus
one. -/
theorem C3_lookup_after_increment :
    ∀ (db : DBState) (u : String) (g m : Option String),
      (increment_kudos db u g m).2 = none ∧
      get_kudos (increment_kudos db u g m).1 u = get_kudos db u + 1 :=
  fun db u g m => ⟨rfl, get_kudos_increment_self db u g m⟩

/-- C4: a match whose target equals the sender contributes exactly one
self-grant-rejection reply at its position in the reply sequence, leaves
the ledger untouched (the final state equals the one produced by the
other matches alone), and the matches after it are still processed in
order. -/
theorem C4_self_grant_rejection :
    ∀ (cmp : Option String → Nat → String) (sender note : String)
      (ms1 ms2 : List (String × String)) (db : DBState),
      (processMatches cmp (fun _ => false) sender (ms1 ++ (sender, note) :: ms2) 0 db).1 =
        (processMatches cmp (fun _ => false) sender ms2 0
          (processMatches cmp (fun _ => false) sender ms1 0 db).1).1 ∧
      (processMatches cmp (fun _ => false) sender (ms1 ++ (sender, note) :: ms2) 0 db).2.1 =
        (processMatches cmp (fun _ => false) sender ms1 0 db).2.1 ++
          Reply.selfGrant sender ::
            (processMatches cmp (fun _ => false) sender ms2 0
              (processMatches cmp (fun _ => false) sender ms1 0 db).1).2.1 := by
  intro cmp sender note ms1 ms2 db
  have happ := processMatches_append cmp sender ms1 ((sender, note) :: ms2) db
  have hcons : processMatches cmp (fun _ => false) sender ((sender, note) :: ms2) 0
      (processMatches cmp (fun _ => false) sender ms1 0 db).1 =
      ((processMatches cmp (fun _ => false) sender ms2 0
          (processMatches cmp (fun _ => false) sender ms1 0 db).1).1,
       Reply.selfGrant sender ::
         (processMatches cmp (fun _ => false) sender ms2 0
           (processMatches cmp (fun _ => false) sender ms1 0 db).1).2.1,
       (processMatches cmp (fun _ => false) sender ms2 0
         (processMatches cmp (fun _ => false) sender ms1 0 db).1).2.2) := by
    simp only [processMatches, if_true]
  rw [happ, hcons]
  exact ⟨rfl, rfl⟩

/-- C5, counterexample: on a three-grant message with the storage failing
at the second `increment_kudos` call, the first match's commit and reply
survive but the third match is never processed — no reply, no aggregate
row, no log row for U3 — and the handler exits by exception; under a
working ledger all three matches would have been processed (second
clause). -/
theorem C5_counterexample :
    handle_message_events (fun _ _ => "ai") (fun k => k == 1) (some "U9")
        "<@U1> ++ a <@U2> ++ b <@U3> ++ c" dbEmpty =
      (⟨[("U1", 1)], [⟨"U1", "U9", some "a"⟩]⟩, [Reply.kudos "U1" 1 "ai"], true) ∧
    handle_message_events (fun _ _ => "ai") (fun _ => false) (some "U9")
        "<@U1> ++ a <@U2> ++ b <@U3> ++ c" dbEmpty =
      (⟨[("U1", 1), ("U2", 1), ("U3", 1)],
        [⟨"U1", "U9", some "a"⟩, ⟨"U2", "U9", some "b"⟩, ⟨"U3", "U9", some "c"⟩]⟩,
       [Reply.kudos "U1" 1 "ai", Reply.kudos "U2" 1 "ai", Reply.kudos "U3" 1 "ai"],
       false) := by
  constructor
  · rfl
  · rfl

/-- C5 (amended): the match loop has no exception handler, so the first
ledger failure aborts the whole handler: every match before the failing
one — self-grants and real grants alike — is processed exactly as in a
failure-free run, so its commits and replies survive; the failing match
and every match after it contribute nothing (no reply, no aggregate
update, no log row), and the handler exits by the uncaught exception.
`ms1` are the matches before the failing one, `target`/`note` the
failing match, `ms2` the matches after it; the failure oracle is `false`
for the `countGrants sender ms1` ledger calls made before the failing
match and `true` at the failing match's own call. -/
theorem C5_ledger_failure_aborts :
    ∀ (cmp : Option String → Nat → String) (failAt : Nat → Bool)
      (sender target note : String) (ms1 ms2 : List (String × String))
      (k : Nat) (db : DBState),
      target ≠ sender →
      (∀ i, i < countGrants sender ms1 → failAt (k + i) = false) →
      failAt (k + countGrants sender ms1) = true →
      processMatches cmp failAt sender (ms1 ++ (target, note) :: ms2) k db =
        ((processMatches cmp (fun _ => false) sender ms1 k db).1,
         (processMatches cmp (fun _ => false) sender ms1 k db).2.1,
         true) := by
  intro cmp failAt sender target note ms1 ms2
  induction ms1 with
  | nil =>
    intro k db htar hpre hfail
    simp only [countGrants, Nat.add_zero] at hfail
    simp only [List.nil_append, processMatches]
    rw [if_neg htar, if_pos hfail]
  | cons p ms1 ih =>
    intro k db htar hpre hfail
    obtain ⟨t1, m1⟩ := p
    by_cases ht1 : t1 = sender
    · have hcg : countGrants sender ((t1, m1) :: ms1) = countGrants sender ms1 := by
        simp [countGrants, ht1]
      rw [hcg] at hpre hfail
      simp only [List.cons_append, processMatches, List.append_eq]
      rw [if_pos ht1, if_pos ht1, ih k db htar hpre hfail]
    · have hcg : countGrants sender ((t1, m1) :: ms1) =
          countGrants sender ms1 + 1 := by
        simp [countGrants, ht1]
      rw [hcg] at hpre hfail
      have h0 : failAt k = false := by
        have := hpre 0 (by omega)
        simpa using this
      have hpre' : ∀ i, i < countGrants sender ms1 → failAt (k + 1 + i) = false := by
        intro i hi
        have harith : k + 1 + i = k + (i + 1) := by omega
        rw [harith]
        exact hpre (i + 1) (by omega)
      have hfail' : failAt (k + 1 + countGrants sender ms1) = true := by
        have harith : k + 1 + countGrants sender ms1 = k + (countGrants sender ms1 + 1) := by
          omega
        rw [harith]
        exact hfail
      simp only [List.cons_append, processMatches, List.append_eq]
      rw [if_neg ht1, if_neg ht1, h0]
      simp only [Bool.false_eq_true, if_false]
      rw [ih (k + 1) _ htar hpre' hfail']

theorem C5_ledger_failure_aborts_witness :
    (("U2" : String) ≠ "U9") ∧
    (∀ i, i < countGrants "U9" [("U1", "a")] → ((0 + i) == 1) = false) ∧
    (((0 + countGrants "U9" [("U1", "a")]) == 1) = true) ∧
    processMatches (fun _ _ => "ai") (fun k => k == 1) "U9"
        ([("U1", "a")] ++ ("U2", "b") :: [("U3", "c")]) 0 dbEmpty =
      ((processMatches (fun _ _ => "ai") (fun _ => false) "U9" [("U1", "a")] 0 dbEmpty).1,
       (processMatches (fun _ _ => "ai") (fun _ => false) "U9" [("U1", "a")] 0 dbEmpty).2.1,
       true) := by
  have hyp : ∀ i, i < countGrants "U9" [("U1", "a")] →
      (fun k => k == 1) (0 + i) = false := by
    intro i hi
    have h1 : i < 1 := hi
    have h0 : i = 0 := by omega
    subst h0
    rfl
  exact ⟨by decide, hyp, by decide,
    C5_ledger_failure_aborts (fun _ _ => "ai") (fun k => k == 1) "U9" "U2" "b"
      [("U1", "a")] [("U3", "c")] 0 dbEmpty (by decide) hyp (by decide)⟩

/-- C6, counterexample: two failing runs with identical inputs (API key
unset, same arguments) may return different fallback strings — the
fallback is drawn by `random.choice` from the list, not deterministic
across runs. -/
theorem C6_counterexample :
    generate_kudos_message none GeminiOutcome.raised 0 none none none none ≠
    generate_kudos_message none GeminiOutcome.raised 1 none none none none := by
  decide

/-- C6 (amended): the composer is total — every failure path (falsy API
key, raised call, falsy response text) is caught inside and returns
`get_fallback_message`, whose value always belongs to the fixed
ten-element fallback list; which element is returned follows the run's
RNG draw, so two failing runs with the same inputs need not agree. -/
theorem C6_composer_failure_fallback :
    ∀ (apiKey : Option String) (outcome : GeminiOutcome) (r : Nat)
      (rn gn km : Option String) (kc : Option Nat),
      (apiKey = none ∨ apiKey = some "" ∨ outcome = GeminiOutcome.raised ∨
        outcome = GeminiOutcome.responseText none ∨
        outcome = GeminiOutcome.responseText (some "")) →
      generate_kudos_message apiKey outcome r rn gn km kc = get_fallback_message r ∧
      get_fallback_message r ∈ fallback_messages := by
  intro apiKey outcome r rn gn km kc hfail
  constructor
  · rcases hfail with rfl | rfl | rfl | rfl | rfl
    · rfl
    · rfl
    · cases apiKey with
      | none => rfl
      | some k => by_cases hk : k = "" <;> simp [generate_kudos_message, hk]
    · cases apiKey with
      | none => rfl
      | some k => by_cases hk : k = "" <;> simp [generate_kudos_message, hk]
    · cases apiKey with
      | none => rfl
      | some k => by_cases hk : k = "" <;> simp [generate_kudos_message, hk]
  · have hlt : r % fallback_messages.length < fallback_messages.length :=
      Nat.mod_lt _ (by decide)
    unfold get_fallback_message
    rw [List.getD_eq_getElem?_getD, List.getElem?_eq_getElem hlt]
    simp only [Option.getD_some]
    exact List.getElem_mem hlt

theorem C6_composer_failure_fallback_witness :
    ((none : Option String) = none ∨ (none : Option String) = some "" ∨
      GeminiOutcome.raised = GeminiOutcome.raised ∨
      GeminiOutcome.raised = GeminiOutcome.responseText none ∨
      GeminiOutcome.raised = GeminiOutcome.responseText (some "")) ∧
    (generate_kudos_message none GeminiOutcome.raised 7 none none none none =
       get_fallback_message 7 ∧
     get_fallback_message 7 ∈ fallback_messages) :=
  ⟨Or.inl rfl,
   C6_composer_failure_fallback none GeminiOutcome.raised 7 none none none none (Or.inl rfl)⟩

/-- C7: the leaderboard query returns at most `limit` entries, sorted by
descending count, and on an empty `kudos` table it returns the empty
sequence. -/
theorem C7_leaderboard :
    ∀ (db : DBState) (limit : Nat) (log : List LogRow),
      (get_leaderboard db limit).length ≤ limit ∧
      List.Sorted byCountDesc (get_leaderboard db limit) ∧
      get_leaderboard ⟨[], log⟩ limit = [] := by
  intro db limit log
  refine ⟨?_, ?_, ?_⟩
  · unfold get_leaderboard
    rw [List.length_take]
    exact Nat.min_le_left _ _
  · unfold get_leaderboard
    exact (List.sorted_insertionSort byCountDesc db.kudos).take
  · unfold get_leaderboard
    rw [show List.insertionSort byCountDesc ([] : List (String × Nat)) = [] from rfl,
      List.take_nil]

/-- C8: for every extracted match, the note the handler passes onward
(`pyNote`, used for both the log row and the composer call) is the
whitespace-stripped note, with an empty-after-stripping note normalized
to the single `none` value; every `some` result is idempotent under
`strip`, i.e. carries no leading or trailing whitespace.  A
whitespace-only group 2 cannot occur: the pattern's `\s*` consumes
whitespace after the marker, so group 2 is empty or starts with a
non-whitespace character. -/
theorem C8_note_normalization :
    ∀ (s : String) (target message : String),
      (target, message) ∈ mentionPlusFindall s →
      pyNote message = (if pystrip message = "" then none else some (pystrip message)) ∧
      (∀ m, pyNote message = some m → pystrip m = m) := by
  intro s target message hmem
  unfold mentionPlusFindall at hmem
  rw [List.mem_map] at hmem
  obtain ⟨⟨lid, lnote⟩, hpmem, hpair⟩ := hmem
  simp only [Prod.mk.injEq] at hpair
  obtain ⟨rfl, rfl⟩ := hpair
  obtain ⟨t, rest, hmo⟩ := scanAux_mem hpmem
  obtain ⟨-, -, hshape⟩ := matchOne_groups hmo
  have hshape2 : lnote = [] ∨ ∃ c note', lnote = c :: note' ∧ isPySpace c = false := hshape
  constructor
  · rcases hshape2 with rfl | ⟨c, note', hnote, hc⟩
    · rfl
    · rw [hnote]
      have hne : (c :: note').asString ≠ "" := by
        intro h
        have h2 : c :: note' = ([] : List Char) := congrArg String.toList h
        cases h2
      have hstrip_ne : pystrip ((c :: note').asString) ≠ "" := by
        intro h
        have h2 : pystripL (c :: note') = ([] : List Char) := congrArg String.toList h
        exact pystripL_ne_nil hc h2
      unfold pyNote
      rw [if_neg hne, if_neg hstrip_ne]
  · intro m hm
    unfold pyNote at hm
    split at hm
    · cases hm
    · simp only [Option.some.injEq] at hm
      subst hm
      exact pystrip_idem _

theorem C8_note_normalization_witness :
    (("U1", "hi  ") ∈ mentionPlusFindall "<@U1> ++  hi  ") ∧
    (pyNote "hi  " = (if pystrip "hi  " = "" then none else some (pystrip "hi  ")) ∧
     ∀ m, pyNote "hi  " = some m → pystrip m = m) :=
  ⟨by decide, C8_note_normalization "<@U1> ++  hi  " "U1" "hi  " (by decide)⟩

/-- C9: an `increment_kudos` call with falsy `giver_id` (`None` or the
empty string) still bumps the receiver's aggregate by one but appends no
transaction row; consequently, after such a call on a fresh database the
aggregate strictly exceeds that receiver's log count. -/
theorem C9_falsy_giver_skips_log :
    (∀ (db : DBState) (u : String) (m : Option String) (g : Option String),
      (g = none ∨ g = some "") →
      get_kudos (increment_kudos db u g m).1 u = get_kudos db u + 1 ∧
      (increment_kudos db u g m).1.kudos_log = db.kudos_log) ∧
    logCount (increment_kudos dbEmpty "U1" none none).1 "U1" <
      get_kudos (increment_kudos dbEmpty "U1" none none).1 "U1" := by
  constructor
  · intro db u m g hg
    refine ⟨get_kudos_increment_self db u g m, ?_⟩
    rcases hg with rfl | rfl
    · rfl
    · rfl
  · decide

theorem C9_falsy_giver_skips_log_witness :
    ((some "" : Option String) = none ∨ (some "" : Option String) = some "") ∧
    (get_kudos (increment_kudos dbEmpty "U2" (some "") (some "x")).1 "U2" =
       get_kudos dbEmpty "U2" + 1 ∧
     (increment_kudos dbEmpty "U2" (some "") (some "x")).1.kudos_log = dbEmpty.kudos_log) :=
  ⟨Or.inr rfl,
   C9_falsy_giver_skips_log.1 dbEmpty "U2" (some "x") (some "") (Or.inr rfl)⟩

/-- C10: every extracted target identifier is a nonempty string over the
uppercase-letter-or-digit alphabet — exactly the `<@` `[A-Z0-9]+` `>`
canonical mention form — and a mention-like token containing a lowercase
letter (here `<@u123>`) yields no grant even when followed by `++`. -/
theorem C10_mention_canonical_form :
    (∀ (s : String) (target message : String),
      (target, message) ∈ mentionPlusFindall s →
      target ≠ "" ∧ ∀ c ∈ target.toList, isIdChar c = true) ∧
    mentionPlusFindall "<@u123> ++ hi" = [] := by
  constructor
  · intro s target message hmem
    unfold mentionPlusFindall at hmem
    rw [List.mem_map] at hmem
    obtain ⟨⟨lid, lnote⟩, hpmem, hpair⟩ := hmem
    simp only [Prod.mk.injEq] at hpair
    obtain ⟨rfl, rfl⟩ := hpair
    obtain ⟨t, rest, hmo⟩ := scanAux_mem hpmem
    obtain ⟨hne, hid, -⟩ := matchOne_groups hmo
    constructor
    · intro h
      exact hne (congrArg String.toList h)
    · intro c hc
      exact hid c hc
  · rfl

theorem C10_mention_canonical_form_witness :
    (("AB12", "ok") ∈ mentionPlusFindall "<@AB12> ++ ok") ∧
    ("AB12" : String) ≠ "" ∧ (∀ c ∈ ("AB12" : String).toList, isIdChar c = true) :=
  ⟨by decide,
   (C10_mention_canonical_form.1 "<@AB12> ++ ok" "AB12" "ok" (by decide)).1,
   (C10_mention_canonical_form.1 "<@AB12> ++ ok" "AB12" "ok" (by decide)).2⟩

end KudosBot
